import Mathlib

/-!
Shallow embedding of the signal-processing kernel in
`src/signal_processor.cpp` (namespace `signal_processor`), together with
theorems settling the specification claims about it.

Modelling conventions:
* C++ `double` values are modelled as real numbers (`ℝ`); `std::sin`,
  `std::cos`, `std::sqrt`, `std::log10` become `Real.sin`, `Real.cos`,
  `Real.sqrt`, `Real.logb 10`.
* `std::vector<double>` becomes `List ℝ`; `std::complex<double>` becomes `ℂ`.
* Functions that can throw become `Except ProcError _`:
  `calculate_snr` throws `std::invalid_argument` explicitly, and a
  `std::vector` constructor invoked with a negative count fails with
  `std::length_error` (after the implicit conversion to `size_t` exceeds
  `max_size`), modelled as `ProcError.lengthError`.
* The Gaussian noise drawn from `std::mt19937` / `std::normal_distribution`
  is nondeterministic; it is modelled as an explicit noise stream `ℕ → ℝ`
  supplied as a parameter (the design notes of the architecture document
  describe the random source exactly as such an explicit generator input).
-/

namespace signal_processor

/-- Error conditions the C++ operations can raise: an explicit
`std::invalid_argument` throw, or the `std::length_error` raised by a
`std::vector` constructor called with a negative (wrapped-around) count. -/
inductive ProcError where
  | invalidArgument
  | lengthError
deriving DecidableEq, Repr

/-- C++ `static_cast<int>` on a `double`: truncation toward zero. -/
noncomputable def cppTrunc (x : ℝ) : ℤ :=
  if 0 ≤ x then ⌊x⌋ else ⌈x⌉

/-- Embedding of `generate_test_signal` (signal_processor.cpp, lines 14-59):
`num_samples = static_cast<int>(sample_rate * duration)`, and sample `i` is
`sin(2π · frequency · (i / sample_rate)) + noise[i]`.  The Gaussian noise
stream is an explicit parameter `noise`; a negative sample count makes the
`std::vector` constructor fail. -/
noncomputable def generate_test_signal (frequency sample_rate duration : ℝ)
    (noise : ℕ → ℝ) : Except ProcError (List ℝ) :=
  let num_samples := cppTrunc (sample_rate * duration)
  if num_samples < 0 then .error .lengthError
  else .ok ((List.range num_samples.toNat).map fun (i : ℕ) =>
    Real.sin (2 * Real.pi * frequency * ((i : ℝ) / sample_rate)) + noise i)

/-- Stage A of `apply_lowpass_filter` (lines 89-114): the windowed-sinc
coefficients before normalization.  `center = num_taps / 2` (integer
division); at `offset = 0` the coefficient is `2 · cutoff_freq`, elsewhere
`sin(2π·cutoff·offset)/(π·offset)` times the Hamming window
`0.54 − 0.46·cos(2π·i/(num_taps−1))`. -/
noncomputable def filter_coeffs (cutoff_freq : ℝ) (num_taps : ℕ) : List ℝ :=
  (List.range num_taps).map fun (i : ℕ) =>
    let offset : ℤ := (i : ℤ) - (num_taps / 2 : ℕ)
    if offset = 0 then 2 * cutoff_freq
    else Real.sin (2 * Real.pi * cutoff_freq * (offset : ℝ)) / (Real.pi * (offset : ℝ)) *
      (0.54 - 0.46 * Real.cos (2 * Real.pi * (i : ℝ) / ((num_taps : ℝ) - 1)))

/-- Coefficient body of `filter_coeffs` with the integer offset cast inlined:
`fcBody c T i` is the `i`-th unnormalized coefficient. -/
noncomputable def fcBody (c : ℝ) (T i : ℕ) : ℝ :=
  if i = T / 2 then 2 * c
  else Real.sin (2 * Real.pi * c * ((i : ℝ) - (T / 2 : ℕ))) /
      (Real.pi * ((i : ℝ) - (T / 2 : ℕ))) *
    (0.54 - 0.46 * Real.cos (2 * Real.pi * (i : ℝ) / ((T : ℝ) - 1)))

/-- Normalization step of `apply_lowpass_filter` (lines 116-124): every
coefficient is divided by the sum of all coefficients. -/
noncomputable def normalize (l : List ℝ) : List ℝ :=
  l.map (fun c => c / l.sum)

/-- Partial sums of the sine series `Σ_{k=1}^{M} sin(x·k)/k`: the Dirichlet-type
sums that control the sum of the windowed-sinc coefficients. -/
noncomputable def dirA (M : ℕ) (x : ℝ) : ℝ :=
  ∑ o ∈ Finset.range M, Real.sin (x * (o + 1)) / (o + 1)

/-- Hamming-weighted sine sum: pairing the coefficients of `filter_coeffs` at
indices `center ± k` (for an odd tap count `2M+1`) produces
`2·cutoff + (2/π)·hamWS M (2π·cutoff)`. -/
noncomputable def hamWS (M : ℕ) (θ : ℝ) : ℝ :=
  ∑ o ∈ Finset.range M,
    (0.54 + 0.46 * Real.cos (Real.pi * (o + 1) / M)) * Real.sin (θ * (o + 1)) / (o + 1)

/-- Signal access with the zero-padding boundary policy of the convolution
loop (lines 136-143): indices outside `[0, len)` contribute zero. -/
noncomputable def sigGet (xs : List ℝ) (i : ℤ) : ℝ :=
  if 0 ≤ i ∧ i < (xs.length : ℤ) then xs.getD i.toNat 0 else 0

/-- Stage B of `apply_lowpass_filter` (lines 126-148): sliding
multiply-accumulate.  `output[n] = Σ_{j<num_taps} input[n−center+j] · coeff[j]`
with out-of-range input samples contributing zero. -/
noncomputable def convOut (input coeffs : List ℝ) (center num_taps : ℕ) : List ℝ :=
  (List.range input.length).map fun (n : ℕ) =>
    ((List.range num_taps).map fun (j : ℕ) =>
      sigGet input ((n : ℤ) - (center : ℤ) + (j : ℤ)) * coeffs.getD j 0).sum

/-- Embedding of `apply_lowpass_filter` (lines 65-149).  The function performs
no validation of `num_taps`; a negative tap count only fails because
`std::vector<double> filter_coeffs(num_taps)` fails, and `num_taps = 0`
produces an all-zero output of the input's length. -/
noncomputable def apply_lowpass_filter (input : List ℝ) (cutoff_freq : ℝ)
    (num_taps : ℤ) : Except ProcError (List ℝ) :=
  if num_taps < 0 then .error .lengthError
  else
    let t := num_taps.toNat
    .ok (convOut input (normalize (filter_coeffs cutoff_freq t)) (t / 2) t)

/-- Modelled from the spec (§4.4): the external FFTW collaborator
(`fftw_plan_dft_r2c_1d` + `fftw_execute`, not part of this repository)
computes the unnormalized forward transform, bin `k` being
`Σ_n input[n] · e^{−2πi·n·k/N}`. -/
noncomputable def dft_bin (input : List ℝ) (k : ℕ) : ℂ :=
  ∑ n ∈ Finset.range input.length,
    (input.getD n 0 : ℂ) *
      Complex.exp (-(2 * Real.pi * Complex.I * (n : ℂ) * (k : ℂ)) / (input.length : ℂ))

/-- Embedding of `compute_fft` (lines 155-214): the result vector is sized
`N / 2 + 1` (integer division) and bin `i` holds the `i`-th output of the
real-to-complex transform. -/
noncomputable def compute_fft (input : List ℝ) : List ℂ :=
  (List.range (input.length / 2 + 1)).map (dft_bin input)

/-- Signal power of `calculate_snr` (lines 249-252): `Σ signal[i]²`. -/
noncomputable def signal_power (signal : List ℝ) : ℝ :=
  (signal.map fun a => a * a).sum

/-- Noise power of `calculate_snr` (lines 255-259): `Σ (noisy[i] − signal[i])²`. -/
noncomputable def noise_power (signal noisy : List ℝ) : ℝ :=
  (List.zipWith (fun s n => (n - s) * (n - s)) signal noisy).sum

/-- Embedding of `calculate_snr` (lines 220-270): lengths must match
(else `std::invalid_argument`), zero noise power returns the 100 dB cap,
otherwise `10 · log10(signal_power / noise_power)`. -/
noncomputable def calculate_snr (signal noisy : List ℝ) : Except ProcError ℝ :=
  if signal.length ≠ noisy.length then .error .invalidArgument
  else if noise_power signal noisy = 0 then .ok 100
  else .ok (10 * Real.logb 10 (signal_power signal / noise_power signal noisy))

/-- Bin magnitude used by `find_peak_frequency` (line 309):
`std::abs` of a complex value, `sqrt(re² + im²)`. -/
noncomputable def magnitude (z : ℂ) : ℝ :=
  Real.sqrt (z.re ^ 2 + z.im ^ 2)

/-- Scan loop of `find_peak_frequency` (lines 304-315): running
`(max_bin, max_magnitude)` state, updated only on a strict increase, so the
first bin of a maximal magnitude is kept. -/
noncomputable def peakAux : List ℂ → ℕ → ℕ → ℝ → ℕ × ℝ
  | [], _, max_bin, max_mag => (max_bin, max_mag)
  | z :: rest, i, max_bin, max_mag =>
    if max_mag < magnitude z then peakAux rest (i + 1) i (magnitude z)
    else peakAux rest (i + 1) max_bin max_mag

/-- The bin index `find_peak_frequency` selects: result of the scan loop
started with `max_bin = 0`, `max_magnitude = 0`. -/
noncomputable def peakBin (s : List ℂ) : ℕ :=
  (peakAux s 0 0 0).1

/-- Embedding of `find_peak_frequency` (lines 276-323): `0.0` on an empty
spectrum, otherwise `max_bin · sample_rate / total_bins` with
`total_bins = (len − 1) · 2`. -/
noncomputable def find_peak_frequency (s : List ℂ) (sample_rate : ℝ) : ℝ :=
  if s = [] then 0
  else (peakBin s : ℝ) * sample_rate / (((s.length : ℝ) - 1) * 2)

/-- Variant of `find_peak_frequency` that models IEEE-754 division semantics:
when `total_bins = 0` the division `0·sample_rate / 0` produces NaN, i.e. no
well-defined frequency, modelled as `none`. -/
noncomputable def find_peak_frequency_checked (s : List ℂ) (sample_rate : ℝ) :
    Option ℝ :=
  if s = [] then some 0
  else
    let total_bins : ℤ := ((s.length : ℤ) - 1) * 2
    if total_bins = 0 then none
    else some ((peakBin s : ℝ) * sample_rate / (total_bins : ℝ))

/-- Sample magnitude with a default, for stating peak-bin properties without
dependent indexing. -/
noncomputable def magAt (s : List ℂ) (j : ℕ) : ℝ :=
  magnitude (s.getD j 0)

/-- Index `k` is the lowest index of `s` attaining the maximum magnitude:
it is in range, no bin beats it, and every earlier bin is strictly below it. -/
def IsLeastPeakBin (s : List ℂ) (k : ℕ) : Prop :=
  k < s.length ∧ (∀ j, j < s.length → magAt s j ≤ magAt s k) ∧
    (∀ j, j < k → magAt s j < magAt s k)

/-- Loop invariant of the scan in `find_peak_frequency` after the bins of `s`
have been processed with state `(b, m)`: the running maximum `m` is
non-negative and dominates every processed bin, and either the state is still
the initial `(0, 0)` or `b` is the first processed bin whose magnitude equals
`m`. -/
def PeakInv (s : List ℂ) (b : ℕ) (m : ℝ) : Prop :=
  0 ≤ m ∧ (∀ j, j < s.length → magAt s j ≤ m) ∧
    ((b = 0 ∧ m = 0) ∨
      (b < s.length ∧ magAt s b = m ∧ ∀ j, j < b → magAt s j < m))

/-! ## Helper lemmas -/

theorem listSum_map_range (f : ℕ → ℝ) (n : ℕ) :
    ((List.range n).map f).sum = ∑ j ∈ Finset.range n, f j := by
  induction n with
  | zero => simp
  | succ m ih =>
    rw [List.range_succ, List.map_append, List.sum_append, Finset.sum_range_succ, ih]
    simp

theorem map_getD_range (l : List ℝ) :
    (List.range l.length).map (fun n => l.getD n 0) = l := by
  apply List.ext_getElem
  · simp
  · intro i h1 h2
    simp only [List.getElem_map, List.getElem_range]
    rw [List.getD_eq_getElem]

/-! ## Claim theorems -/

/-- C1, counterexample: the claim says the empty input yields a spectrum of
length 0, but `compute_fft` sizes its result `N / 2 + 1`, which is 1 for
`N = 0`. -/
theorem compute_fft_empty_cex : (compute_fft ([] : List ℝ)).length ≠ 0 := by
  simp [compute_fft]

/-- C1, amended: for every input of length `N ≥ 0`, `compute_fft` returns a
spectrum of length `⌊N/2⌋ + 1`; in particular the empty input yields one bin,
not zero bins. -/
theorem compute_fft_length (input : List ℝ) :
    (compute_fft input).length = input.length / 2 + 1 := by
  simp [compute_fft]

/-- C2: the claim requires `apply_lowpass_filter` to fail with an
invalid-argument error for `num_taps ≤ 0`; the code has no such validation.
At `num_taps = 0` it returns a result — the all-zero signal of the input's
length — instead of failing. -/
theorem apply_lowpass_filter_no_validation :
    apply_lowpass_filter [1] (1/4) 0 = .ok [0] := by
  simp [apply_lowpass_filter, convOut, filter_coeffs, normalize]

/-- C3, counterexample: at `sample_rate = 1`, `duration = 27/10` the code
produces `⌊2.7⌋ = 2` samples, while rounding to the nearest integer gives 3. -/
theorem generate_test_signal_round_cex :
    (generate_test_signal 1 1 (27/10) (fun _ => 0)).toOption.map List.length ≠
      some (round ((1 : ℝ) * (27/10))).toNat := by
  have hfloor : cppTrunc ((1 : ℝ) * (27/10)) = 2 := by
    rw [cppTrunc, if_pos (by norm_num)]
    rw [show ((1 : ℝ) * (27/10)) = 27/10 by ring, Int.floor_eq_iff]
    constructor <;> norm_num
  have hround : round ((1 : ℝ) * (27/10)) = 3 := by
    rw [round_eq, show ((1 : ℝ) * (27/10) + 1/2) = 32/10 by ring, Int.floor_eq_iff]
    constructor <;> norm_num
  have h2 : (generate_test_signal 1 1 (27/10) (fun _ => 0)).toOption.map
      List.length = some 2 := by
    simp only [generate_test_signal, hfloor]
    norm_num [Except.toOption]
    decide
  rw [h2, hround]
  simp

/-- C3, amended: for non-negative `sample_rate` and `duration`, the generated
signal has length `⌊sample_rate · duration⌋` (the product truncated toward
zero, not rounded to nearest). -/
theorem generate_test_signal_length (frequency sample_rate duration : ℝ)
    (noise : ℕ → ℝ) (hs : 0 ≤ sample_rate) (hd : 0 ≤ duration) :
    (generate_test_signal frequency sample_rate duration noise).toOption.map
      List.length = some (⌊sample_rate * duration⌋).toNat := by
  have hprod : 0 ≤ sample_rate * duration := mul_nonneg hs hd
  have htr : cppTrunc (sample_rate * duration) = ⌊sample_rate * duration⌋ := by
    rw [cppTrunc, if_pos hprod]
  have hnn : ¬ (⌊sample_rate * duration⌋ < 0) := not_lt.mpr (Int.floor_nonneg.mpr hprod)
  simp only [generate_test_signal, htr, if_neg hnn]
  simp [Except.toOption]

/-- C3, witness: at `sample_rate = 2`, `duration = 3` the signal has
`⌊6⌋ = 6` samples. -/
theorem generate_test_signal_length_witness :
    (0 : ℝ) ≤ 2 ∧ (0 : ℝ) ≤ 3 ∧
      (generate_test_signal 1 2 3 (fun _ => 0)).toOption.map List.length =
        some (⌊(2 : ℝ) * 3⌋).toNat :=
  ⟨by norm_num, by norm_num,
    generate_test_signal_length 1 2 3 (fun _ => 0) (by norm_num) (by norm_num)⟩

/-- C7: for equal-length signals, zero noise power yields the capped sentinel
`100` dB, and nonzero noise power yields `10 · log10(signal_power /
noise_power)`; identical signals have zero noise power, so `calculate_snr x x`
returns the cap. -/
theorem calculate_snr_value (x y : List ℝ) (hlen : x.length = y.length) :
    (noise_power x y = 0 → calculate_snr x y = .ok 100) ∧
      (noise_power x y ≠ 0 → calculate_snr x y =
        .ok (10 * Real.logb 10 (signal_power x / noise_power x y))) := by
  constructor
  · intro h0
    rw [calculate_snr, if_neg (by simp [hlen]), if_pos h0]
  · intro hne
    rw [calculate_snr, if_neg (by simp [hlen]), if_neg hne]

/-- C7, witness: `calculate_snr [1,2] [1,2]` has zero noise power and returns
the capped sentinel `100`. -/
theorem calculate_snr_value_witness :
    ([1, 2] : List ℝ).length = ([1, 2] : List ℝ).length ∧
      calculate_snr [1, 2] [1, 2] = .ok 100 := by
  refine ⟨rfl, ?_⟩
  have h := (calculate_snr_value [1, 2] [1, 2] rfl).1
  apply h
  simp [noise_power]

/-- C8: `calculate_snr` fails with the invalid-argument error exactly on a
length mismatch, and performs no other validation — equal lengths always
produce a result. -/
theorem calculate_snr_validation (x y : List ℝ) :
    (x.length ≠ y.length → calculate_snr x y = .error .invalidArgument) ∧
      (x.length = y.length → ∃ v, calculate_snr x y = .ok v) := by
  constructor
  · intro hne
    rw [calculate_snr, if_pos hne]
  · intro heq
    rw [calculate_snr, if_neg (by simp [heq])]
    by_cases h0 : noise_power x y = 0
    · exact ⟨100, by rw [if_pos h0]⟩
    · exact ⟨_, by rw [if_neg h0]⟩

/-- C8, witness: a length mismatch fails with the invalid-argument error, and
equal lengths produce a result. -/
theorem calculate_snr_validation_witness :
    calculate_snr [1] ([] : List ℝ) = .error .invalidArgument ∧
      ∃ v, calculate_snr [1] [1] = .ok v :=
  ⟨(calculate_snr_validation [1] []).1 (by simp),
    (calculate_snr_validation [1] [1]).2 rfl⟩

theorem magAt_append_left (pre l : List ℂ) (j : ℕ) (h : j < pre.length) :
    magAt (pre ++ l) j = magAt pre j := by
  rw [magAt, magAt, List.getD_append _ _ _ _ h]

theorem magAt_append_mid (pre : List ℂ) (z : ℂ) (l : List ℂ) :
    magAt (pre ++ z :: l) pre.length = magnitude z := by
  rw [magAt, List.getD_append_right _ _ _ _ (le_refl _), Nat.sub_self]
  rfl

theorem peakAux_inv (l : List ℂ) : ∀ (pre : List ℂ) (b : ℕ) (m : ℝ),
    PeakInv pre b m →
    PeakInv (pre ++ l) (peakAux l pre.length b m).1 (peakAux l pre.length b m).2 := by
  induction l with
  | nil => intro pre b m h; simpa using h
  | cons z rest ih =>
    intro pre b m h
    obtain ⟨hm0, hub, hdisj⟩ := h
    have hlen1 : (pre ++ [z]).length = pre.length + 1 := by simp
    have happ : (pre ++ [z]) ++ rest = pre ++ z :: rest := by simp
    simp only [peakAux]
    by_cases hlt : m < magnitude z
    · rw [if_pos hlt]
      have hmid : magAt (pre ++ [z]) pre.length = magnitude z := magAt_append_mid pre z []
      have h2 : PeakInv (pre ++ [z]) pre.length (magnitude z) := by
        refine ⟨Real.sqrt_nonneg _, ?_, Or.inr ⟨by simp, hmid, ?_⟩⟩
        · intro j hj
          rw [hlen1] at hj
          rcases Nat.lt_or_ge j pre.length with hj' | hj'
          · rw [magAt_append_left _ _ _ hj']
            exact (hub j hj').trans (le_of_lt hlt)
          · have : j = pre.length := by omega
            rw [this, hmid]
        · intro j hj
          rw [magAt_append_left _ _ _ hj]
          exact lt_of_le_of_lt (hub j hj) hlt
      have h3 := ih (pre ++ [z]) pre.length (magnitude z) h2
      rw [hlen1, happ] at h3
      exact h3
    · rw [if_neg hlt]
      have hle : magnitude z ≤ m := not_lt.mp hlt
      have hmid : magAt (pre ++ [z]) pre.length = magnitude z := magAt_append_mid pre z []
      have h2 : PeakInv (pre ++ [z]) b m := by
        refine ⟨hm0, ?_, ?_⟩
        · intro j hj
          rw [hlen1] at hj
          rcases Nat.lt_or_ge j pre.length with hj' | hj'
          · rw [magAt_append_left _ _ _ hj']
            exact hub j hj'
          · have : j = pre.length := by omega
            rw [this, hmid]
            exact hle
        · rcases hdisj with hinit | ⟨hb, hbeq, hstrict⟩
          · exact Or.inl hinit
          · refine Or.inr ⟨?_, ?_, ?_⟩
            · rw [hlen1]; omega
            · rw [magAt_append_left _ _ _ hb]; exact hbeq
            · intro j hj
              rw [magAt_append_left _ _ _ (hj.trans hb)]
              exact hstrict j hj
      have h3 := ih (pre ++ [z]) b m h2
      rw [hlen1, happ] at h3
      exact h3

/-! ## Remaining claim theorems -/

/-- C4: `find_peak_frequency` returns 0 on an empty spectrum, and otherwise
returns `peak_bin · sample_rate / ((len − 1) · 2)` where `peak_bin` is the
lowest index attaining the maximum magnitude (first bin wins ties). -/
theorem find_peak_frequency_spec (s : List ℂ) (sr : ℝ) :
    (s = [] → find_peak_frequency s sr = 0) ∧
      (s ≠ [] → IsLeastPeakBin s (peakBin s) ∧
        find_peak_frequency s sr =
          (peakBin s : ℝ) * sr / (((s.length : ℝ) - 1) * 2)) := by
  constructor
  · intro h
    rw [find_peak_frequency, if_pos h]
  · intro hne
    refine ⟨?_, by rw [find_peak_frequency, if_neg hne]⟩
    have hstart : PeakInv ([] : List ℂ) 0 0 :=
      ⟨le_refl 0, by simp, Or.inl ⟨rfl, rfl⟩⟩
    have hinv := peakAux_inv s [] 0 0 hstart
    simp only [List.nil_append, List.length_nil] at hinv
    obtain ⟨hm0, hub, hdisj⟩ := hinv
    rcases hdisj with ⟨hb0, hmm0⟩ | ⟨hblt, hbeq, hstrict⟩
    · refine ⟨?_, ?_, ?_⟩
      · simp only [peakBin, hb0]
        exact List.length_pos.mpr hne
      · intro j hj
        simp only [peakBin, hb0]
        exact (hmm0 ▸ hub j hj).trans (Real.sqrt_nonneg _)
      · intro j hj
        simp only [peakBin, hb0] at hj
        exact absurd hj (Nat.not_lt_zero j)
    · exact ⟨hblt, fun j hj => hbeq ▸ hub j hj, fun j hj => hbeq ▸ hstrict j hj⟩

/-- C4, witness: on the spectrum `[0, 1, 1]` with sample rate 8, the peak bin
is bin 1 (the first of the two tied maximal bins) and the returned frequency
is `1 · 8 / ((3 − 1) · 2) = 2`. -/
theorem find_peak_frequency_spec_witness :
    ([0, 1, 1] : List ℂ) ≠ [] ∧
      IsLeastPeakBin [0, 1, 1] (peakBin [0, 1, 1]) ∧
      find_peak_frequency ([0, 1, 1] : List ℂ) 8 = 2 := by
  have hmag0 : magnitude 0 = 0 := by
    simp [magnitude]
  have hmag1 : magnitude 1 = 1 := by
    simp [magnitude]
  have hpb : peakBin ([0, 1, 1] : List ℂ) = 1 := by
    simp only [peakBin, peakAux, hmag0, hmag1]
    norm_num
  have h := (find_peak_frequency_spec ([0, 1, 1] : List ℂ) 8).2 (by simp)
  refine ⟨by simp, h.1, ?_⟩
  rw [h.2, hpb]
  norm_num

/-- C6: for positive tap counts, the filtered output has the input's length
and each output sample is the convolution sum
`Σ_j coeff[j] · input[n − center + j]` with out-of-range samples contributing
zero. -/
theorem apply_lowpass_filter_conv (input : List ℝ) (cutoff_freq : ℝ)
    (num_taps : ℤ) (h : 0 < num_taps) :
    ∃ out, apply_lowpass_filter input cutoff_freq num_taps = .ok out ∧
      out.length = input.length ∧
      ∀ n, n < input.length →
        out.getD n 0 = ∑ j ∈ Finset.range num_taps.toNat,
          (normalize (filter_coeffs cutoff_freq num_taps.toNat)).getD j 0 *
            sigGet input ((n : ℤ) - (num_taps.toNat / 2 : ℕ) + (j : ℕ)) := by
  rw [apply_lowpass_filter, if_neg (not_lt.mpr h.le)]
  refine ⟨_, rfl, by simp [convOut], ?_⟩
  intro n hn
  have hn' : n < (convOut input (normalize (filter_coeffs cutoff_freq num_taps.toNat))
      (num_taps.toNat / 2) num_taps.toNat).length := by
    simpa [convOut] using hn
  rw [List.getD_eq_getElem _ _ hn']
  simp only [convOut, List.getElem_map, List.getElem_range]
  rw [listSum_map_range]
  exact Finset.sum_congr rfl fun j _ => mul_comm _ _

/-- C6, witness: filtering `[5, 7]` with one tap keeps both length and
values; the convolution formula applies at both indices. -/
theorem apply_lowpass_filter_conv_witness :
    (0 : ℤ) < 1 ∧
      ∃ out, apply_lowpass_filter [5, 7] (1/2) 1 = .ok out ∧
        out.length = ([5, 7] : List ℝ).length ∧
        ∀ n, n < ([5, 7] : List ℝ).length →
          out.getD n 0 = ∑ j ∈ Finset.range (1 : ℤ).toNat,
            (normalize (filter_coeffs (1/2) (1 : ℤ).toNat)).getD j 0 *
              sigGet [5, 7] ((n : ℤ) - ((1 : ℤ).toNat / 2 : ℕ) + (j : ℕ)) :=
  ⟨by decide, apply_lowpass_filter_conv [5, 7] (1/2) 1 (by decide)⟩

/-- C9: a one-bin spectrum makes the divisor `(len − 1) · 2` of the
bin-to-frequency conversion exactly zero, so the division is a division by
zero and (under IEEE semantics, modelled by the checked variant) no
well-defined frequency is produced. -/
theorem find_peak_frequency_single_bin (z : ℂ) (sr : ℝ) :
    ((([z] : List ℂ).length : ℤ) - 1) * 2 = 0 ∧
      find_peak_frequency_checked [z] sr = none := by
  constructor
  · simp
  · rw [find_peak_frequency_checked, if_neg (by simp)]
    simp

/-- C10: with a single tap and nonzero cutoff, only the `offset = 0` branch
of the coefficient design runs (the Hamming branch that would divide by
`num_taps − 1 = 0` is never taken), the lone coefficient `2·cutoff`
normalizes to exactly 1, and the filter is the identity. -/
theorem apply_lowpass_filter_single_tap (input : List ℝ) (cutoff_freq : ℝ)
    (hc : cutoff_freq ≠ 0) :
    filter_coeffs cutoff_freq 1 = [2 * cutoff_freq] ∧
      normalize (filter_coeffs cutoff_freq 1) = [1] ∧
      apply_lowpass_filter input cutoff_freq 1 = .ok input := by
  have hcoeffs : filter_coeffs cutoff_freq 1 = [2 * cutoff_freq] := by
    simp [filter_coeffs, show List.range 1 = [0] from rfl]
  have hnorm : normalize (filter_coeffs cutoff_freq 1) = [1] := by
    rw [hcoeffs, normalize]
    simp [div_self (mul_ne_zero two_ne_zero hc)]
  refine ⟨hcoeffs, hnorm, ?_⟩
  rw [apply_lowpass_filter, if_neg (by decide)]
  show Except.ok (convOut input (normalize (filter_coeffs cutoff_freq 1)) (1 / 2) 1) =
    Except.ok input
  rw [hnorm]
  have hconv : convOut input [1] (1 / 2) 1 =
      (List.range input.length).map (fun n => input.getD n 0) := by
    rw [convOut]
    apply List.map_congr_left
    intro n hn
    have hn' : n < input.length := List.mem_range.mp hn
    have hidx : (n : ℤ) - ((1 / 2 : ℕ) : ℤ) + ((0 : ℕ) : ℤ) = (n : ℤ) := by
      norm_num
    simp only [show List.range 1 = [0] from rfl, List.map_cons, List.map_nil, List.sum_cons,
      List.sum_nil, add_zero, hidx]
    rw [sigGet, if_pos ⟨Int.natCast_nonneg n, by exact_mod_cast hn'⟩]
    simp
  rw [hconv, map_getD_range]

/-- C10, witness: one-tap filtering of `[3, 5]` with cutoff `1/2` is the
identity, and the lone coefficient normalizes to 1. -/
theorem apply_lowpass_filter_single_tap_witness :
    ((1 : ℝ)/2 ≠ 0) ∧
      (filter_coeffs (1/2) 1 = [2 * (1/2)] ∧
        normalize (filter_coeffs (1/2) 1) = [1] ∧
        apply_lowpass_filter [3, 5] (1/2) 1 = .ok [3, 5]) :=
  ⟨by norm_num, apply_lowpass_filter_single_tap [3, 5] (1/2) (by norm_num)⟩

/-! ## Coefficient-sum development (towards the unity-DC-gain claim) -/

theorem list_sum_map_div (l : List ℝ) (s : ℝ) :
    (l.map (fun c => c / s)).sum = l.sum / s := by
  induction l with
  | nil => simp
  | cons a t ih => simp [ih, add_div]

theorem normalize_sum_eq_one (l : List ℝ) (h : l.sum ≠ 0) :
    (normalize l).sum = 1 := by
  rw [normalize, list_sum_map_div, div_self h]

theorem dirA_neg (M : ℕ) (x : ℝ) : dirA M (-x) = -dirA M x := by
  simp [dirA, Real.sin_neg, neg_div]

theorem dirA_add_two_pi (M : ℕ) (x : ℝ) : dirA M (x + 2 * Real.pi) = dirA M x := by
  unfold dirA
  refine Finset.sum_congr rfl fun o _ => ?_
  have h1 : (x + 2 * Real.pi) * ((o : ℝ) + 1) =
      x * ((o : ℝ) + 1) + ((o + 1 : ℕ) : ℝ) * (2 * Real.pi) := by
    push_cast
    ring
  rw [h1, Real.sin_add_nat_mul_two_pi]

theorem dirA_nonneg_small (M : ℕ) (x : ℝ) (hx : 0 ≤ x)
    (hMx : (M : ℝ) * x ≤ Real.pi) : 0 ≤ dirA M x := by
  apply Finset.sum_nonneg
  intro o ho
  apply div_nonneg _ (by positivity)
  apply Real.sin_nonneg_of_nonneg_of_le_pi (by positivity)
  have h1 : ((o : ℝ) + 1) ≤ (M : ℝ) := by
    exact_mod_cast Nat.succ_le_of_lt (Finset.mem_range.mp ho)
  nlinarith

theorem dirA_le_small (M : ℕ) (x : ℝ) (hx : 0 ≤ x) : dirA M x ≤ (M : ℝ) * x := by
  have h : ∀ o ∈ Finset.range M, Real.sin (x * (o + 1)) / (o + 1) ≤ x := by
    intro o _
    have hs : Real.sin (x * ((o : ℝ) + 1)) ≤ x * ((o : ℝ) + 1) :=
      Real.sin_le (by positivity)
    have hpos : (0 : ℝ) < (o : ℝ) + 1 := by positivity
    calc Real.sin (x * (o + 1)) / (o + 1) ≤ x * ((o : ℝ) + 1) / (o + 1) := by
          exact (div_le_div_right hpos).mpr hs
      _ = x := by field_simp
  calc dirA M x ≤ ∑ _o ∈ Finset.range M, x := Finset.sum_le_sum h
    _ = (M : ℝ) * x := by simp [mul_comm]

theorem sin_half_ge (ψ b : ℝ) (hb : 0 < b) (h1 : b ≤ ψ) (h2 : ψ ≤ 2 * Real.pi - b) :
    b / Real.pi ≤ Real.sin (ψ / 2) := by
  have hπ := Real.pi_pos
  rcases le_total ψ Real.pi with h | h
  · have hs := Real.mul_le_sin (x := ψ / 2) (by linarith) (by linarith)
    have hdiv : b / Real.pi ≤ ψ / Real.pi := by
      exact (div_le_div_right hπ).mpr h1
    calc b / Real.pi ≤ ψ / Real.pi := hdiv
      _ = 2 / Real.pi * (ψ / 2) := by ring
      _ ≤ Real.sin (ψ / 2) := hs
  · have hψ2 : ψ / 2 = Real.pi - (2 * Real.pi - ψ) / 2 := by ring
    rw [hψ2, Real.sin_pi_sub]
    have hs := Real.mul_le_sin (x := (2 * Real.pi - ψ) / 2) (by linarith) (by linarith)
    have hdiv : b / Real.pi ≤ (2 * Real.pi - ψ) / Real.pi := by
      exact (div_le_div_right hπ).mpr (by linarith)
    calc b / Real.pi ≤ (2 * Real.pi - ψ) / Real.pi := hdiv
      _ = 2 / Real.pi * ((2 * Real.pi - ψ) / 2) := by ring
      _ ≤ Real.sin ((2 * Real.pi - ψ) / 2) := hs

theorem cos_sum_reflect (M : ℕ) (hM : 1 ≤ M) :
    ∑ o ∈ Finset.range M, Real.cos (Real.pi * (o + 1) / M) = -1 := by
  have hM0 : ((M : ℝ)) ≠ 0 := Nat.cast_ne_zero.mpr (by omega)
  obtain ⟨m, rfl⟩ : ∃ m, M = m + 1 := ⟨M - 1, by omega⟩
  set f : ℕ → ℝ := fun o => Real.cos (Real.pi * (o + 1) / (m + 1)) with hf
  have key : ∀ o ∈ Finset.range (m + 1),
      f (m + 1 - 1 - o) = -Real.cos (Real.pi * o / (m + 1)) := by
    intro o ho
    have ho' : o < m + 1 := Finset.mem_range.mp ho
    have hcast : ((m + 1 - 1 - o : ℕ) : ℝ) + 1 = ((m : ℝ) + 1) - o := by
      have he : m + 1 - 1 - o = m - o := by omega
      rw [he, Nat.cast_sub (by omega)]
      ring
    have harg : Real.pi * (((m + 1 - 1 - o : ℕ) : ℝ) + 1) / ((m : ℕ) + 1 : ℕ) =
        Real.pi - Real.pi * o / (m + 1) := by
      rw [hcast]
      push_cast
      field_simp
      ring
    rw [hf]
    simp only []
    rw [show ((m : ℕ) + 1 : ℕ) = m + 1 from rfl] at harg
    push_cast at harg ⊢
    rw [harg, Real.cos_pi_sub]
  have hrefl := Finset.sum_range_reflect f (m + 1)
  have h1 : ∑ o ∈ Finset.range (m + 1), f o =
      -∑ o ∈ Finset.range (m + 1), Real.cos (Real.pi * o / (m + 1)) := by
    rw [← hrefl]
    rw [← Finset.sum_neg_distrib]
    exact Finset.sum_congr rfl key
  have h2 : ∑ o ∈ Finset.range (m + 1), Real.cos (Real.pi * o / (m + 1)) =
      1 + ∑ o ∈ Finset.range m, f o := by
    rw [Finset.sum_range_succ']
    simp [hf]
    ring
  have h3 : ∑ o ∈ Finset.range m, f o = (∑ o ∈ Finset.range (m + 1), f o) + 1 := by
    rw [Finset.sum_range_succ]
    have hfm : f m = -1 := by
      rw [hf]
      simp only []
      have : Real.pi * ((m : ℝ) + 1) / ((m : ℝ) + 1) = Real.pi := by
        field_simp
      rw [this, Real.cos_pi]
    rw [hfm]
    ring
  push_cast at h1 h2 h3 ⊢
  linarith

theorem filter_coeffs_sum_eq (c : ℝ) (T : ℕ) :
    (filter_coeffs c T).sum = ∑ i ∈ Finset.range T, fcBody c T i := by
  rw [filter_coeffs, listSum_map_range]
  refine Finset.sum_congr rfl fun i _ => ?_
  dsimp only
  by_cases h : (i : ℤ) - ((T / 2 : ℕ) : ℤ) = 0
  · rw [if_pos h, fcBody, if_pos (show i = T / 2 by omega)]
  · rw [if_neg h, fcBody, if_neg (show ¬ i = T / 2 by omega)]
    simp only [Int.cast_sub, Int.cast_natCast]

theorem fcBody_center (c : ℝ) (M : ℕ) : fcBody c (2 * M + 1) M = 2 * c := by
  rw [fcBody, if_pos (by omega)]

theorem fcBody_right (c : ℝ) (M j : ℕ) (hM : 1 ≤ M) :
    fcBody c (2 * M + 1) (M + 1 + j) =
      Real.sin (2 * Real.pi * c * (j + 1)) / (Real.pi * (j + 1)) *
        (0.54 + 0.46 * Real.cos (Real.pi * (j + 1) / M)) := by
  have hM0 : ((M : ℝ)) ≠ 0 := Nat.cast_ne_zero.mpr (by omega)
  rw [fcBody, if_neg (by omega)]
  have hc2 : ((2 * M + 1) / 2 : ℕ) = M := by omega
  rw [hc2]
  have hoff : ((M + 1 + j : ℕ) : ℝ) - (M : ℝ) = (j : ℝ) + 1 := by
    push_cast
    ring
  have hwin : 2 * Real.pi * ((M + 1 + j : ℕ) : ℝ) / (((2 * M + 1 : ℕ) : ℝ) - 1) =
      Real.pi * ((j : ℝ) + 1) / (M : ℝ) + Real.pi := by
    push_cast
    field_simp
    ring
  rw [hoff, hwin, Real.cos_add_pi]
  ring

theorem fcBody_left (c : ℝ) (M j : ℕ) (hM : 1 ≤ M) (hj : j < M) :
    fcBody c (2 * M + 1) (M - 1 - j) =
      Real.sin (2 * Real.pi * c * (j + 1)) / (Real.pi * (j + 1)) *
        (0.54 + 0.46 * Real.cos (Real.pi * (j + 1) / M)) := by
  have hM0 : ((M : ℝ)) ≠ 0 := Nat.cast_ne_zero.mpr (by omega)
  rw [fcBody, if_neg (by omega)]
  have hc2 : ((2 * M + 1) / 2 : ℕ) = M := by omega
  rw [hc2]
  have hidx : M - 1 - j = M - (j + 1) := by omega
  have hcast : ((M - 1 - j : ℕ) : ℝ) = (M : ℝ) - ((j : ℝ) + 1) := by
    rw [hidx, Nat.cast_sub (by omega)]
    push_cast
    ring
  have hoff : ((M - 1 - j : ℕ) : ℝ) - (M : ℝ) = -((j : ℝ) + 1) := by
    rw [hcast]
    ring
  have hwin : 2 * Real.pi * ((M - 1 - j : ℕ) : ℝ) / (((2 * M + 1 : ℕ) : ℝ) - 1) =
      Real.pi - Real.pi * ((j : ℝ) + 1) / (M : ℝ) := by
    rw [hcast]
    push_cast
    field_simp
    ring
  rw [hoff, hwin, Real.cos_pi_sub]
  have hsin : Real.sin (2 * Real.pi * c * -((j : ℝ) + 1)) =
      -Real.sin (2 * Real.pi * c * ((j : ℝ) + 1)) := by
    rw [show 2 * Real.pi * c * -((j : ℝ) + 1) = -(2 * Real.pi * c * ((j : ℝ) + 1)) by ring]
    exact Real.sin_neg _
  rw [hsin]
  have hden : Real.pi * -((j : ℝ) + 1) = -(Real.pi * ((j : ℝ) + 1)) := by ring
  rw [hden, neg_div_neg_eq]
  ring

theorem filter_coeffs_sum_pairing (c : ℝ) (M : ℕ) (hM : 1 ≤ M) :
    (filter_coeffs c (2 * M + 1)).sum =
      2 * c + (2 / Real.pi) * hamWS M (2 * Real.pi * c) := by
  rw [filter_coeffs_sum_eq]
  have hsplit : ∑ i ∈ Finset.range (2 * M + 1), fcBody c (2 * M + 1) i =
      (∑ i ∈ Finset.range M, fcBody c (2 * M + 1) i) + fcBody c (2 * M + 1) M +
        ∑ j ∈ Finset.range M, fcBody c (2 * M + 1) (M + 1 + j) := by
    have e1 := Finset.sum_Ico_consecutive (fcBody c (2 * M + 1)) (Nat.zero_le M)
      (show M ≤ 2 * M + 1 by omega)
    have e2 := Finset.sum_eq_sum_Ico_succ_bot (show M < 2 * M + 1 by omega)
      (fcBody c (2 * M + 1))
    have e3 := Finset.sum_Ico_eq_sum_range (f := fcBody c (2 * M + 1))
      (m := M + 1) (n := 2 * M + 1)
    rw [show 2 * M + 1 - (M + 1) = M from by omega] at e3
    calc ∑ i ∈ Finset.range (2 * M + 1), fcBody c (2 * M + 1) i
        = ∑ i ∈ Finset.Ico 0 (2 * M + 1), fcBody c (2 * M + 1) i := by
          rw [Finset.range_eq_Ico]
      _ = (∑ i ∈ Finset.Ico 0 M, fcBody c (2 * M + 1) i) +
            ∑ i ∈ Finset.Ico M (2 * M + 1), fcBody c (2 * M + 1) i := e1.symm
      _ = (∑ i ∈ Finset.range M, fcBody c (2 * M + 1) i) +
            (fcBody c (2 * M + 1) M +
              ∑ j ∈ Finset.range M, fcBody c (2 * M + 1) (M + 1 + j)) := by
          rw [← Finset.range_eq_Ico, e2, e3]
      _ = _ := by ring
  rw [hsplit, fcBody_center]
  have hrefl : ∑ i ∈ Finset.range M, fcBody c (2 * M + 1) i =
      ∑ j ∈ Finset.range M, fcBody c (2 * M + 1) (M - 1 - j) :=
    (Finset.sum_range_reflect _ M).symm
  rw [hrefl]
  have hL : ∀ j ∈ Finset.range M, fcBody c (2 * M + 1) (M - 1 - j) =
      Real.sin (2 * Real.pi * c * (j + 1)) / (Real.pi * (j + 1)) *
        (0.54 + 0.46 * Real.cos (Real.pi * (j + 1) / M)) := fun j hj =>
    fcBody_left c M j hM (Finset.mem_range.mp hj)
  have hR : ∀ j ∈ Finset.range M, fcBody c (2 * M + 1) (M + 1 + j) =
      Real.sin (2 * Real.pi * c * (j + 1)) / (Real.pi * (j + 1)) *
        (0.54 + 0.46 * Real.cos (Real.pi * (j + 1) / M)) := fun j _ =>
    fcBody_right c M j hM
  rw [Finset.sum_congr rfl hL, Finset.sum_congr rfl hR, hamWS, Finset.mul_sum]
  have h2 : ∑ j ∈ Finset.range M, (2 / Real.pi) *
        ((0.54 + 0.46 * Real.cos (Real.pi * (j + 1) / M)) *
          Real.sin (2 * Real.pi * c * (j + 1)) / (j + 1)) =
      2 * ∑ j ∈ Finset.range M, Real.sin (2 * Real.pi * c * (j + 1)) /
        (Real.pi * (j + 1)) * (0.54 + 0.46 * Real.cos (Real.pi * (j + 1) / M)) := by
    rw [Finset.mul_sum]
    refine Finset.sum_congr rfl fun j _ => ?_
    have hj1 : ((j : ℝ) + 1) ≠ 0 := by positivity
    have hπ : Real.pi ≠ 0 := Real.pi_ne_zero
    field_simp
    ring
  rw [h2]
  ring

theorem sin_half_pos_on (ψ : ℝ) (hψ0 : 0 < ψ) (hψ2 : ψ < 2 * Real.pi) :
    ∀ t ∈ Set.uIcc ψ Real.pi, 0 < Real.sin (t / 2) := by
  have hπ := Real.pi_pos
  intro t htm
  have h := Set.mem_uIcc.mp htm
  apply Real.sin_pos_of_pos_of_lt_pi
  · rcases h with ⟨h1, _⟩ | ⟨h1, _⟩ <;> linarith
  · rcases h with ⟨_, h2⟩ | ⟨_, h2⟩ <;> linarith

theorem dirichlet_kernel_sum (M : ℕ) (t : ℝ) (ht : Real.sin (t / 2) ≠ 0) :
    ∑ o ∈ Finset.range M, Real.cos (t * (o + 1)) =
      Real.sin (((M : ℝ) + 1 / 2) * t) / (2 * Real.sin (t / 2)) - 1 / 2 := by
  have key : ∀ o : ℕ, 2 * Real.sin (t / 2) * Real.cos (t * (o + 1)) =
      Real.sin (((o : ℝ) + 1 + 1 / 2) * t) - Real.sin (((o : ℝ) + 1 / 2) * t) := by
    intro o
    rw [show ((o : ℝ) + 1 + 1 / 2) * t = t * ((o : ℝ) + 1) + t / 2 by ring,
      show ((o : ℝ) + 1 / 2) * t = t * ((o : ℝ) + 1) - t / 2 by ring,
      Real.sin_add, Real.sin_sub]
    ring
  have tele := Finset.sum_range_sub (fun i : ℕ => Real.sin (((i : ℝ) + 1 / 2) * t)) M
  push_cast at tele
  have hsum : 2 * Real.sin (t / 2) * ∑ o ∈ Finset.range M, Real.cos (t * (o + 1)) =
      Real.sin (((M : ℝ) + 1 / 2) * t) - Real.sin (t / 2) := by
    rw [Finset.mul_sum, Finset.sum_congr rfl fun o _ => key o, tele,
      show ((0 : ℝ) + 1 / 2) * t = t / 2 by ring]
  have hne : 2 * Real.sin (t / 2) ≠ 0 := mul_ne_zero two_ne_zero ht
  rw [eq_sub_iff_add_eq, eq_div_iff hne]
  linear_combination hsum

theorem integral_cos_term (ψ : ℝ) (k : ℕ) :
    (∫ t in ψ..Real.pi, Real.cos (t * ((k : ℝ) + 1))) =
      -(Real.sin (ψ * ((k : ℝ) + 1)) / ((k : ℝ) + 1)) := by
  have hk : ((k : ℝ) + 1) ≠ 0 := by positivity
  have hderiv : ∀ t ∈ Set.uIcc ψ Real.pi,
      HasDerivAt (fun t => Real.sin (t * ((k : ℝ) + 1)) / ((k : ℝ) + 1))
        (Real.cos (t * ((k : ℝ) + 1))) t := by
    intro t _
    have h1 : HasDerivAt (fun t : ℝ => t * ((k : ℝ) + 1)) ((k : ℝ) + 1) t :=
      hasDerivAt_mul_const _
    have h3 := ((Real.hasDerivAt_sin (t * ((k : ℝ) + 1))).comp t h1).div_const ((k : ℝ) + 1)
    have he : Real.cos (t * ((k : ℝ) + 1)) * ((k : ℝ) + 1) / ((k : ℝ) + 1) =
        Real.cos (t * ((k : ℝ) + 1)) := mul_div_cancel_right₀ _ hk
    rw [he] at h3
    exact h3
  have hint : IntervalIntegrable (fun t => Real.cos (t * ((k : ℝ) + 1)))
      MeasureTheory.volume ψ Real.pi :=
    (Real.continuous_cos.comp (continuous_id.mul continuous_const)).intervalIntegrable _ _
  rw [intervalIntegral.integral_eq_sub_of_hasDerivAt hderiv hint]
  have hπ0 : Real.sin (Real.pi * ((k : ℝ) + 1)) = 0 := by
    rw [show Real.pi * ((k : ℝ) + 1) = ((k + 1 : ℕ) : ℝ) * Real.pi by push_cast; ring]
    exact Real.sin_nat_mul_pi (k + 1)
  rw [hπ0]
  ring

theorem dirA_eq_sub_integral (M : ℕ) (ψ : ℝ) (hψ0 : 0 < ψ) (hψ2 : ψ < 2 * Real.pi) :
    dirA M ψ = (Real.pi - ψ) / 2 -
      ∫ t in ψ..Real.pi,
        Real.sin (((M : ℝ) + 1 / 2) * t) * (1 / (2 * Real.sin (t / 2))) := by
  have hmem := sin_half_pos_on ψ hψ0 hψ2
  have hintk : ∀ k ∈ Finset.range M,
      IntervalIntegrable (fun t => Real.cos (t * ((k : ℝ) + 1)))
        MeasureTheory.volume ψ Real.pi := fun k _ =>
    (Real.continuous_cos.comp (continuous_id.mul continuous_const)).intervalIntegrable _ _
  have h1 : (∫ t in ψ..Real.pi, ∑ o ∈ Finset.range M, Real.cos (t * ((o : ℝ) + 1))) =
      -dirA M ψ := by
    rw [intervalIntegral.integral_finset_sum hintk,
      Finset.sum_congr rfl fun k _ => integral_cos_term ψ k, dirA,
      ← Finset.sum_neg_distrib]
  have hgcont : ContinuousOn
      (fun t => Real.sin (((M : ℝ) + 1 / 2) * t) * (1 / (2 * Real.sin (t / 2))))
      (Set.uIcc ψ Real.pi) := by
    apply ContinuousOn.mul
    · exact (Real.continuous_sin.comp (continuous_const.mul continuous_id)).continuousOn
    · apply ContinuousOn.div continuousOn_const
      · exact (continuous_const.mul
          (Real.continuous_sin.comp (continuous_id.div_const 2))).continuousOn
      · intro t htm
        exact mul_ne_zero two_ne_zero (ne_of_gt (hmem t htm))
  have h2 : (∫ t in ψ..Real.pi, ∑ o ∈ Finset.range M, Real.cos (t * ((o : ℝ) + 1))) =
      (∫ t in ψ..Real.pi,
        Real.sin (((M : ℝ) + 1 / 2) * t) * (1 / (2 * Real.sin (t / 2)))) -
        (Real.pi - ψ) * (1 / 2) := by
    rw [intervalIntegral.integral_congr
      (g := fun t => Real.sin (((M : ℝ) + 1 / 2) * t) * (1 / (2 * Real.sin (t / 2))) - 1 / 2)
      (fun t htm => by
        have hd := dirichlet_kernel_sum M t (ne_of_gt (hmem t htm))
        rw [div_eq_mul_one_div] at hd
        exact hd)]
    rw [intervalIntegral.integral_sub hgcont.intervalIntegrable intervalIntegrable_const,
      intervalIntegral.integral_const]
    simp [smul_eq_mul]
  have h3 := h1.symm.trans h2
  linarith

theorem dirA_near (M : ℕ) (ψ : ℝ) (hψ0 : 0 < ψ) (hψ2 : ψ < 2 * Real.pi) :
    |dirA M ψ - (Real.pi - ψ) / 2| ≤
      1 / ((((M : ℝ) + 1 / 2)) * Real.sin (ψ / 2)) := by
  have hπ := Real.pi_pos
  have hmem := sin_half_pos_on ψ hψ0 hψ2
  have hψmem : ψ ∈ Set.uIcc ψ Real.pi := Set.left_mem_uIcc
  have hπmem : Real.pi ∈ Set.uIcc ψ Real.pi := Set.right_mem_uIcc
  have hsψ : 0 < Real.sin (ψ / 2) := hmem ψ hψmem
  set L : ℝ := (M : ℝ) + 1 / 2 with hLdef
  have hL : 0 < L := by positivity
  set g : ℝ → ℝ := fun t => 1 / (2 * Real.sin (t / 2)) with hgdef
  set gd : ℝ → ℝ := fun t => -Real.cos (t / 2) / (2 * Real.sin (t / 2)) ^ 2 with hgddef
  set v : ℝ → ℝ := fun t => -(Real.cos (L * t) / L) with hvdef
  have hgderiv : ∀ t ∈ Set.uIcc ψ Real.pi, HasDerivAt g (gd t) t := by
    intro t htm
    have hs := ne_of_gt (hmem t htm)
    have h1 : HasDerivAt (fun t : ℝ => t / 2) (1 / 2) t := (hasDerivAt_id t).div_const 2
    have h2 := (Real.hasDerivAt_sin (t / 2)).comp t h1
    have h3 := h2.const_mul (2 : ℝ)
    rw [show (2 : ℝ) * (Real.cos (t / 2) * (1 / 2)) = Real.cos (t / 2) by ring] at h3
    have hne : (2 : ℝ) * Real.sin (t / 2) ≠ 0 := mul_ne_zero two_ne_zero hs
    have h5 := h3.inv hne
    simp only [hgdef, hgddef, one_div]
    exact h5
  have hvderiv : ∀ t ∈ Set.uIcc ψ Real.pi, HasDerivAt v (Real.sin (L * t)) t := by
    intro t _
    have h1 : HasDerivAt (fun t : ℝ => L * t) L t := by
      simpa using (hasDerivAt_id t).const_mul L
    have h2 := (Real.hasDerivAt_cos (L * t)).comp t h1
    have h3 := (h2.div_const L).neg
    rw [show -(-Real.sin (L * t) * L / L) = Real.sin (L * t) by field_simp] at h3
    exact h3
  have hsin2cont : Continuous fun t : ℝ => 2 * Real.sin (t / 2) :=
    continuous_const.mul (Real.continuous_sin.comp (continuous_id.div_const 2))
  have hgcont : ContinuousOn g (Set.uIcc ψ Real.pi) := by
    apply ContinuousOn.div continuousOn_const hsin2cont.continuousOn
    intro t htm
    exact mul_ne_zero two_ne_zero (ne_of_gt (hmem t htm))
  have hgdcont : ContinuousOn gd (Set.uIcc ψ Real.pi) := by
    apply ContinuousOn.div
    · exact (Real.continuous_cos.comp (continuous_id.div_const 2)).neg.continuousOn
    · exact (hsin2cont.pow 2).continuousOn
    · intro t htm
      exact pow_ne_zero 2 (mul_ne_zero two_ne_zero (ne_of_gt (hmem t htm)))
  have hvcont : Continuous v := by
    rw [hvdef]
    exact ((Real.continuous_cos.comp (continuous_const.mul continuous_id)).div_const L).neg
  have hsinLcont : Continuous fun t => Real.sin (L * t) :=
    Real.continuous_sin.comp (continuous_const.mul continuous_id)
  have hibp := intervalIntegral.integral_mul_deriv_eq_deriv_mul hgderiv hvderiv
    hgdcont.intervalIntegrable (hsinLcont.intervalIntegrable _ _)
  have hBcomm : (∫ t in ψ..Real.pi, Real.sin (L * t) * (1 / (2 * Real.sin (t / 2)))) =
      ∫ t in ψ..Real.pi, g t * Real.sin (L * t) :=
    intervalIntegral.integral_congr fun t _ => mul_comm _ _
  have hgπ : g Real.pi = 1 / 2 := by
    simp [hgdef, Real.sin_pi_div_two]
  have hgψpos : 0 < g ψ := by
    simp only [hgdef]
    positivity
  have hgψge : (1 : ℝ) / 2 ≤ g ψ := by
    simp only [hgdef]
    have h1 : 2 * Real.sin (ψ / 2) ≤ 2 := by
      nlinarith [Real.sin_le_one (ψ / 2)]
    exact one_div_le_one_div_of_le (by positivity) h1
  have hvbound : ∀ t : ℝ, |v t| ≤ 1 / L := by
    intro t
    simp only [hvdef]
    rw [abs_neg, abs_div, abs_of_pos hL]
    exact (div_le_div_right hL).mpr (Real.abs_cos_le_one _)
  have hIbound : |∫ t in ψ..Real.pi, gd t * v t| ≤ (g ψ - g Real.pi) / L := by
    have habs : ∀ t ∈ Set.uIcc ψ Real.pi, ‖gd t * v t‖ ≤ |gd t| * (1 / L) := by
      intro t _
      rw [Real.norm_eq_abs, abs_mul]
      exact mul_le_mul_of_nonneg_left (hvbound t) (abs_nonneg _)
    rcases le_total ψ Real.pi with hc | hc
    · have huicc : Set.uIcc ψ Real.pi = Set.Icc ψ Real.pi := Set.uIcc_of_le hc
      have hgd_sign : ∀ t ∈ Set.Icc ψ Real.pi, gd t ≤ 0 := by
        intro t htm
        obtain ⟨ht1, ht2⟩ := htm
        simp only [hgddef]
        apply div_nonpos_of_nonpos_of_nonneg
        · simp only [neg_nonpos]
          apply Real.cos_nonneg_of_mem_Icc
          constructor <;> linarith
        · positivity
      have h1 : ‖∫ t in ψ..Real.pi, gd t * v t‖ ≤
          ∫ t in ψ..Real.pi, ‖gd t * v t‖ :=
        intervalIntegral.norm_integral_le_integral_norm hc
      have h2 : (∫ t in ψ..Real.pi, ‖gd t * v t‖) ≤
          ∫ t in ψ..Real.pi, -gd t * (1 / L) := by
        apply intervalIntegral.integral_mono_on hc
          ((hgdcont.mul hvcont.continuousOn).norm.intervalIntegrable)
          ((hgdcont.neg.mul continuousOn_const).intervalIntegrable)
        intro t htm
        have htm' : t ∈ Set.uIcc ψ Real.pi := huicc ▸ htm
        calc ‖gd t * v t‖ ≤ |gd t| * (1 / L) := habs t htm'
          _ = -gd t * (1 / L) := by
              rw [abs_of_nonpos (hgd_sign t htm)]
      have h3 : (∫ t in ψ..Real.pi, -gd t * (1 / L)) = (g ψ - g Real.pi) / L := by
        rw [intervalIntegral.integral_congr
          (g := fun t => -(1 / L) * gd t) (fun t _ => by ring)]
        rw [intervalIntegral.integral_const_mul,
          intervalIntegral.integral_eq_sub_of_hasDerivAt hgderiv hgdcont.intervalIntegrable]
        field_simp
      rw [Real.norm_eq_abs] at h1
      linarith
    · have huicc : Set.uIcc ψ Real.pi = Set.Icc Real.pi ψ := Set.uIcc_of_ge hc
      have hgd_sign : ∀ t ∈ Set.Icc Real.pi ψ, 0 ≤ gd t := by
        intro t htm
        obtain ⟨ht1, ht2⟩ := htm
        simp only [hgddef]
        apply div_nonneg
        · simp only [neg_nonneg]
          apply Real.cos_nonpos_of_pi_div_two_le_of_le
          · linarith
          · linarith
        · positivity
      have hsymm : (∫ t in ψ..Real.pi, gd t * v t) = -∫ t in Real.pi..ψ, gd t * v t :=
        intervalIntegral.integral_symm Real.pi ψ
      rw [hsymm, abs_neg]
      have h1 : ‖∫ t in Real.pi..ψ, gd t * v t‖ ≤
          ∫ t in Real.pi..ψ, ‖gd t * v t‖ :=
        intervalIntegral.norm_integral_le_integral_norm hc
      have h2 : (∫ t in Real.pi..ψ, ‖gd t * v t‖) ≤
          ∫ t in Real.pi..ψ, gd t * (1 / L) := by
        apply intervalIntegral.integral_mono_on hc
          ((hgdcont.mul hvcont.continuousOn).norm.intervalIntegrable.symm)
          ((hgdcont.mul continuousOn_const).intervalIntegrable.symm)
        intro t htm
        have htm' : t ∈ Set.uIcc ψ Real.pi := huicc ▸ htm
        calc ‖gd t * v t‖ ≤ |gd t| * (1 / L) := habs t htm'
          _ = gd t * (1 / L) := by
              rw [abs_of_nonneg (hgd_sign t htm)]
      have h3 : (∫ t in Real.pi..ψ, gd t * (1 / L)) = (g ψ - g Real.pi) / L := by
        rw [intervalIntegral.integral_congr
          (g := fun t => (1 / L) * gd t) (fun t _ => by ring)]
        rw [intervalIntegral.integral_const_mul]
        have hgderiv' : ∀ t ∈ Set.uIcc Real.pi ψ, HasDerivAt g (gd t) t := by
          rw [Set.uIcc_comm]
          exact hgderiv
        rw [intervalIntegral.integral_eq_sub_of_hasDerivAt hgderiv'
          hgdcont.intervalIntegrable.symm]
        field_simp
      rw [Real.norm_eq_abs] at h1
      linarith
  have hB := dirA_eq_sub_integral M ψ hψ0 hψ2
  have hBval : dirA M ψ - (Real.pi - ψ) / 2 =
      -(g Real.pi * v Real.pi - g ψ * v ψ - ∫ t in ψ..Real.pi, gd t * v t) := by
    rw [← hibp, ← hBcomm]
    linarith
  rw [hBval, abs_neg]
  have hb1 : |g Real.pi * v Real.pi| ≤ (1 / 2) * (1 / L) := by
    rw [abs_mul, hgπ, abs_of_pos (by norm_num : (0:ℝ) < 1/2)]
    exact mul_le_mul_of_nonneg_left (hvbound Real.pi) (by norm_num)
  have hb2 : |g ψ * v ψ| ≤ g ψ * (1 / L) := by
    rw [abs_mul, abs_of_pos hgψpos]
    exact mul_le_mul_of_nonneg_left (hvbound ψ) (le_of_lt hgψpos)
  have htri : |g Real.pi * v Real.pi - g ψ * v ψ - ∫ t in ψ..Real.pi, gd t * v t| ≤
      |g Real.pi * v Real.pi| + |g ψ * v ψ| + |∫ t in ψ..Real.pi, gd t * v t| := by
    calc |g Real.pi * v Real.pi - g ψ * v ψ - ∫ t in ψ..Real.pi, gd t * v t|
        ≤ |g Real.pi * v Real.pi - g ψ * v ψ| + |∫ t in ψ..Real.pi, gd t * v t| :=
          abs_sub _ _
      _ ≤ |g Real.pi * v Real.pi| + |g ψ * v ψ| + |∫ t in ψ..Real.pi, gd t * v t| := by
          have := abs_sub (g Real.pi * v Real.pi) (g ψ * v ψ)
          linarith
  have hfinal : (1 / 2) * (1 / L) + g ψ * (1 / L) + (g ψ - g Real.pi) / L =
      1 / (L * Real.sin (ψ / 2)) := by
    rw [hgπ]
    simp only [hgdef]
    field_simp
    ring
  calc |g Real.pi * v Real.pi - g ψ * v ψ - ∫ t in ψ..Real.pi, gd t * v t|
      ≤ |g Real.pi * v Real.pi| + |g ψ * v ψ| + |∫ t in ψ..Real.pi, gd t * v t| := htri
    _ ≤ (1 / 2) * (1 / L) + g ψ * (1 / L) + (g ψ - g Real.pi) / L := by
        linarith
    _ = 1 / (L * Real.sin (ψ / 2)) := hfinal

theorem hamWS_decomp (M : ℕ) (θ : ℝ) :
    hamWS M θ = 0.54 * dirA M θ + 0.23 * dirA M (θ + Real.pi / M) +
      0.23 * dirA M (θ - Real.pi / M) := by
  rw [hamWS, dirA, dirA, dirA, Finset.mul_sum, Finset.mul_sum, Finset.mul_sum,
    ← Finset.sum_add_distrib, ← Finset.sum_add_distrib]
  refine Finset.sum_congr rfl fun o _ => ?_
  rw [show (θ + Real.pi / M) * ((o : ℝ) + 1) =
        θ * ((o : ℝ) + 1) + Real.pi * ((o : ℝ) + 1) / M by ring,
    show (θ - Real.pi / M) * ((o : ℝ) + 1) =
        θ * ((o : ℝ) + 1) - Real.pi * ((o : ℝ) + 1) / M by ring,
    Real.sin_add, Real.sin_sub]
  ring

theorem hamWS_nonneg_small (M : ℕ) (θ : ℝ) (h0 : 0 ≤ θ)
    (hθ : (M : ℝ) * θ ≤ Real.pi) : 0 ≤ hamWS M θ := by
  apply Finset.sum_nonneg
  intro o ho
  have hw : (0 : ℝ) ≤ 0.54 + 0.46 * Real.cos (Real.pi * (o + 1) / M) := by
    nlinarith [Real.neg_one_le_cos (Real.pi * ((o : ℝ) + 1) / M)]
  have hs : 0 ≤ Real.sin (θ * ((o : ℝ) + 1)) := by
    apply Real.sin_nonneg_of_nonneg_of_le_pi (by positivity)
    have h1 : ((o : ℝ) + 1) ≤ (M : ℝ) := by
      exact_mod_cast Nat.succ_le_of_lt (Finset.mem_range.mp ho)
    nlinarith
  positivity

theorem hamWS_le_small (M : ℕ) (hM : 1 ≤ M) (θ : ℝ) (h0 : 0 ≤ θ) :
    hamWS M θ ≤ θ * (0.54 * M - 0.46) := by
  have hstep : ∀ o ∈ Finset.range M,
      (0.54 + 0.46 * Real.cos (Real.pi * (o + 1) / M)) * Real.sin (θ * (o + 1)) / (o + 1) ≤
        (0.54 + 0.46 * Real.cos (Real.pi * (o + 1) / M)) * θ := by
    intro o _
    have hw : (0 : ℝ) ≤ 0.54 + 0.46 * Real.cos (Real.pi * (o + 1) / M) := by
      nlinarith [Real.neg_one_le_cos (Real.pi * ((o : ℝ) + 1) / M)]
    have hk : (0 : ℝ) < (o : ℝ) + 1 := by positivity
    have hs : Real.sin (θ * ((o : ℝ) + 1)) ≤ θ * ((o : ℝ) + 1) :=
      Real.sin_le (by positivity)
    rw [div_le_iff hk]
    calc (0.54 + 0.46 * Real.cos (Real.pi * (o + 1) / M)) * Real.sin (θ * (o + 1)) ≤
        (0.54 + 0.46 * Real.cos (Real.pi * (o + 1) / M)) * (θ * ((o : ℝ) + 1)) :=
          mul_le_mul_of_nonneg_left hs hw
      _ = (0.54 + 0.46 * Real.cos (Real.pi * (o + 1) / M)) * θ * ((o : ℝ) + 1) := by ring
  calc hamWS M θ ≤
      ∑ o ∈ Finset.range M, (0.54 + 0.46 * Real.cos (Real.pi * (o + 1) / M)) * θ :=
        Finset.sum_le_sum hstep
    _ = (∑ o ∈ Finset.range M, (0.54 + 0.46 * Real.cos (Real.pi * (o + 1) / M))) * θ := by
        rw [Finset.sum_mul]
    _ = θ * (0.54 * M - 0.46) := by
        rw [Finset.sum_add_distrib, Finset.sum_const, Finset.card_range,
          ← Finset.mul_sum, cos_sum_reflect M hM]
        ring

theorem dirA_two_pi_sub (M : ℕ) (u : ℝ) :
    dirA M (2 * Real.pi - u) = -dirA M u := by
  rw [dirA, dirA, ← Finset.sum_neg_distrib]
  refine Finset.sum_congr rfl fun o _ => ?_
  rw [show (2 * Real.pi - u) * ((o : ℝ) + 1) =
      ((o + 1 : ℕ) : ℝ) * (2 * Real.pi) - u * ((o : ℝ) + 1) by push_cast; ring,
    Real.sin_nat_mul_two_pi_sub]
  rw [neg_div]

theorem hamWS_two_pi_sub (M : ℕ) (u : ℝ) :
    hamWS M (2 * Real.pi - u) = -hamWS M u := by
  rw [hamWS, hamWS, ← Finset.sum_neg_distrib]
  refine Finset.sum_congr rfl fun o _ => ?_
  rw [show (2 * Real.pi - u) * ((o : ℝ) + 1) =
      ((o + 1 : ℕ) : ℝ) * (2 * Real.pi) - u * ((o : ℝ) + 1) by push_cast; ring,
    Real.sin_nat_mul_two_pi_sub]
  ring

theorem dirA_lower (M : ℕ) (hM : 1 ≤ M) (ψ jv : ℝ) (hj : 0 < jv)
    (h1 : jv * (Real.pi / M) ≤ ψ) (h2 : ψ ≤ 2 * Real.pi - jv * (Real.pi / M)) :
    (Real.pi - ψ) / 2 - 1 / jv ≤ dirA M ψ := by
  have hπ := Real.pi_pos
  have hMr : (1 : ℝ) ≤ (M : ℝ) := by exact_mod_cast hM
  have hαpos : 0 < Real.pi / M := by positivity
  have hjα : 0 < jv * (Real.pi / M) := by positivity
  have hψ0 : 0 < ψ := lt_of_lt_of_le hjα h1
  have hψ2 : ψ < 2 * Real.pi := by nlinarith
  have hnear := dirA_near M ψ hψ0 hψ2
  have hsin := sin_half_ge ψ (jv * (Real.pi / M)) hjα h1 h2
  set L : ℝ := (M : ℝ) + 1 / 2 with hL
  have hLpos : 0 < L := by positivity
  have hMne : ((M : ℝ)) ≠ 0 := by positivity
  have heq : ((M : ℝ) + 1 / 2) * (Real.pi / M) = Real.pi + Real.pi / (2 * M) := by
    field_simp
    ring
  have hhalf : (0 : ℝ) ≤ Real.pi / (2 * M) := by positivity
  have hkey : jv ≤ L * Real.sin (ψ / 2) := by
    have hs2 : L * (jv * (Real.pi / M) / Real.pi) ≤ L * Real.sin (ψ / 2) :=
      mul_le_mul_of_nonneg_left hsin hLpos.le
    calc jv = jv * Real.pi / Real.pi := by field_simp
      _ ≤ jv * (L * (Real.pi / M)) / Real.pi := by
          apply (div_le_div_right hπ).mpr
          rw [hL, heq]
          nlinarith
      _ = L * (jv * (Real.pi / M) / Real.pi) := by ring
      _ ≤ L * Real.sin (ψ / 2) := hs2
  have hE : 1 / (L * Real.sin (ψ / 2)) ≤ 1 / jv :=
    one_div_le_one_div_of_le hj hkey
  have habs := abs_le.mp hnear
  linarith [habs.1]

theorem dirA_upper (M : ℕ) (hM : 1 ≤ M) (ψ jv : ℝ) (hj : 0 < jv)
    (h1 : jv * (Real.pi / M) ≤ ψ) (h2 : ψ ≤ 2 * Real.pi - jv * (Real.pi / M)) :
    dirA M ψ ≤ (Real.pi - ψ) / 2 + 1 / jv := by
  have hπ := Real.pi_pos
  have hMr : (1 : ℝ) ≤ (M : ℝ) := by exact_mod_cast hM
  have hjα : 0 < jv * (Real.pi / M) := by positivity
  have hψ0 : 0 < ψ := lt_of_lt_of_le hjα h1
  have hψ2 : ψ < 2 * Real.pi := by nlinarith
  have hnear := dirA_near M ψ hψ0 hψ2
  have hsin := sin_half_ge ψ (jv * (Real.pi / M)) hjα h1 h2
  set L : ℝ := (M : ℝ) + 1 / 2 with hL
  have hLpos : 0 < L := by positivity
  have hMne : ((M : ℝ)) ≠ 0 := by positivity
  have heq : ((M : ℝ) + 1 / 2) * (Real.pi / M) = Real.pi + Real.pi / (2 * M) := by
    field_simp
    ring
  have hhalf : (0 : ℝ) ≤ Real.pi / (2 * M) := by positivity
  have hkey : jv ≤ L * Real.sin (ψ / 2) := by
    have hs2 : L * (jv * (Real.pi / M) / Real.pi) ≤ L * Real.sin (ψ / 2) :=
      mul_le_mul_of_nonneg_left hsin hLpos.le
    calc jv = jv * Real.pi / Real.pi := by field_simp
      _ ≤ jv * (L * (Real.pi / M)) / Real.pi := by
          apply (div_le_div_right hπ).mpr
          rw [hL, heq]
          nlinarith
      _ = L * (jv * (Real.pi / M) / Real.pi) := by ring
      _ ≤ L * Real.sin (ψ / 2) := hs2
  have hE : 1 / (L * Real.sin (ψ / 2)) ≤ 1 / jv :=
    one_div_le_one_div_of_le hj hkey
  have habs := abs_le.mp hnear
  linarith [habs.2]

theorem hamWS_main_pos (M : ℕ) (hM : 1 ≤ M) (θ : ℝ) (h0 : 0 < θ)
    (h2 : θ < 2 * Real.pi) : 0 < θ + 2 * hamWS M θ := by
  have hπ := Real.pi_pos
  have hπ3 := Real.pi_gt_three
  by_cases hM1 : M = 1
  · subst hM1
    have hval : hamWS 1 θ = 2 / 25 * Real.sin θ := by
      rw [hamWS, Finset.sum_range_one]
      norm_num [Real.cos_pi]
    rw [hval]
    rcases le_total θ Real.pi with hc | hc
    · have hs : 0 ≤ Real.sin θ := Real.sin_nonneg_of_nonneg_of_le_pi h0.le hc
      nlinarith
    · have hs := Real.neg_one_le_sin θ
      nlinarith
  · have hM2 : 2 ≤ M := by omega
    have hMr : (2 : ℝ) ≤ (M : ℝ) := by exact_mod_cast hM2
    have hM0 : (0 : ℝ) ≤ (M : ℝ) := Nat.cast_nonneg M
    set α : ℝ := Real.pi / M with hα
    have hαpos : 0 < α := by positivity
    have hMα : (M : ℝ) * α = Real.pi := by
      rw [hα]
      field_simp
    have hα2 : α ≤ Real.pi / 2 := by
      rw [hα, div_le_div_iff (by positivity) (by norm_num)]
      nlinarith
    have hdec := hamWS_decomp M θ
    rw [← hα] at hdec
    rcases le_or_lt θ α with hcA | hcB
    · have hW := hamWS_nonneg_small M θ h0.le
        (by nlinarith [mul_le_mul_of_nonneg_left hcA hM0])
      linarith
    rcases le_or_lt θ (2 * α) with hcB2 | hcC
    · have hA1 := dirA_lower M hM θ 1 one_pos
        (by rw [one_mul, ← hα]; linarith) (by rw [one_mul, ← hα]; linarith)
      have hA2 := dirA_lower M hM (θ + α) 1 one_pos
        (by rw [one_mul, ← hα]; linarith) (by rw [one_mul, ← hα]; linarith)
      have hA3 := dirA_nonneg_small M (θ - α) (by linarith)
        (by nlinarith [mul_le_mul_of_nonneg_left (show θ - α ≤ α by linarith) hM0])
      rw [hdec]
      linarith
    rcases lt_or_le θ (2 * Real.pi - 2 * α) with hcC2 | hcD
    · have hA1 := dirA_lower M hM θ 2 two_pos
        (by rw [← hα] at *; linarith) (by rw [← hα] at *; linarith)
      have hA2 := dirA_lower M hM (θ + α) 1 one_pos
        (by rw [one_mul, ← hα]; linarith) (by rw [one_mul, ← hα]; linarith)
      have hA3 := dirA_lower M hM (θ - α) 1 one_pos
        (by rw [one_mul, ← hα]; linarith) (by rw [one_mul, ← hα]; linarith)
      rw [hdec]
      linarith
    rcases lt_or_le θ (2 * Real.pi - α) with hcD2 | hcE
    · set v : ℝ := 2 * Real.pi - α - θ with hvdef
      have hv0 : 0 < v := by rw [hvdef]; linarith
      have hvα : v ≤ α := by rw [hvdef]; linarith
      clear_value α v
      have hwrap : dirA M (θ + α) = -dirA M v := by
        rw [show θ + α = 2 * Real.pi - v by rw [hvdef]; ring, dirA_two_pi_sub]
      have hA1 := dirA_lower M hM θ 1 one_pos
        (by rw [one_mul, ← hα]; linarith) (by rw [one_mul, ← hα]; linarith)
      have hA3 := dirA_lower M hM (θ - α) 1 one_pos
        (by rw [one_mul, ← hα]; linarith) (by rw [one_mul, ← hα]; linarith)
      rcases le_or_lt v (α / 2) with hvs | hvl
      · have hup : dirA M v ≤ (M : ℝ) * v := dirA_le_small M v hv0.le
        have hMv : (M : ℝ) * v ≤ Real.pi / 2 := by
          linarith [mul_le_mul_of_nonneg_left hvs hM0]
        rw [hdec, hwrap]
        linarith
      · have hup : dirA M v ≤ (Real.pi - v) / 2 + 1 / (1 / 2) := by
          apply dirA_upper M hM v (1 / 2) (by norm_num)
          · rw [← hα]
            linarith
          · rw [← hα]
            linarith
        rw [hdec, hwrap]
        linarith
    · set u : ℝ := 2 * Real.pi - θ with hu
      have hu0 : 0 < u := by rw [hu]; linarith
      have huα : u ≤ α := by rw [hu]; linarith
      clear_value α u
      have hwrap : hamWS M θ = -hamWS M u := by
        rw [show θ = 2 * Real.pi - u by rw [hu]; ring, hamWS_two_pi_sub]
      have hle := hamWS_le_small M hM u hu0.le
      have hMu : (M : ℝ) * u ≤ Real.pi := by
        linarith [mul_le_mul_of_nonneg_left huα hM0]
      have hexp : u * (0.54 * (M : ℝ) - 0.46) = 0.54 * ((M : ℝ) * u) - 0.46 * u := by
        ring
      rw [hexp] at hle
      rw [hwrap]
      linarith

theorem filter_coeffs_sum_pos (c : ℝ) (M : ℕ) (hM : 1 ≤ M)
    (h0 : 0 < c) (h1 : c < 1) : 0 < (filter_coeffs c (2 * M + 1)).sum := by
  have hπ := Real.pi_pos
  rw [filter_coeffs_sum_pairing c M hM]
  have hθ0 : 0 < 2 * Real.pi * c := by positivity
  have hθ2 : 2 * Real.pi * c < 2 * Real.pi := by nlinarith
  have hmain := hamWS_main_pos M hM (2 * Real.pi * c) hθ0 hθ2
  have hrw : 2 * c + (2 / Real.pi) * hamWS M (2 * Real.pi * c) =
      (2 * Real.pi * c + 2 * hamWS M (2 * Real.pi * c)) / Real.pi := by
    field_simp
    ring
  rw [hrw]
  exact div_pos hmain hπ

/-- C5: for every cutoff frequency in `(0,1)` and every odd tap count at
least 3, the normalized windowed-sinc coefficients computed by
`apply_lowpass_filter` sum to exactly 1 (unity DC gain): the unnormalized
coefficient sum is strictly positive, so dividing by it is well defined. -/
theorem filter_coeffs_unity_gain (cutoff_freq : ℝ) (num_taps : ℤ)
    (hodd : Odd num_taps) (h3 : 3 ≤ num_taps)
    (hc0 : 0 < cutoff_freq) (hc1 : cutoff_freq < 1) :
    (normalize (filter_coeffs cutoff_freq num_taps.toNat)).sum = 1 := by
  obtain ⟨m, hm⟩ := hodd
  have htn : num_taps.toNat = 2 * m.toNat + 1 := by omega
  have hm1 : 1 ≤ m.toNat := by omega
  rw [htn]
  exact normalize_sum_eq_one _
    (ne_of_gt (filter_coeffs_sum_pos cutoff_freq m.toNat hm1 hc0 hc1))

/-- C5, witness: the three normalized coefficients at cutoff `1/2` and
`num_taps = 3` sum to 1. -/
theorem filter_coeffs_unity_gain_witness :
    Odd (3 : ℤ) ∧ (3 : ℤ) ≤ 3 ∧ (0 : ℝ) < 1/2 ∧ (1 : ℝ)/2 < 1 ∧
      (normalize (filter_coeffs (1/2) ((3 : ℤ)).toNat)).sum = 1 :=
  ⟨⟨1, by norm_num⟩, le_refl 3, by norm_num, by norm_num,
    filter_coeffs_unity_gain (1/2) 3 ⟨1, by norm_num⟩ (by norm_num)
      (by norm_num) (by norm_num)⟩

end signal_processor
